import Mathlib

/-!
Verification of the Aristoxenus music-theory library.

Interval structures are bit-encoded integers in which the least significant
bit is the bass; the library also renders them as ascending offset tuples.
The development below embeds the data model (nomenclature, canonical scale
registry, transform engine, chord values, chord-symbol parsing) and proves
the documented properties.
-/

namespace Aristoxenus

/- ## Nomenclature: letters, notes, pitch classes -/

/-- Letter names A-G used for note spelling. -/
inductive Letter where
  | A | B | C | D | E | F | G
deriving DecidableEq

/-- Modelled from the spec: the chromatic pitch class of each natural letter,
with C = 0 (missing nomenclature module). -/
def letterPc : Letter → Int
  | .A => 9
  | .B => 11
  | .C => 0
  | .D => 2
  | .E => 4
  | .F => 5
  | .G => 7

/-- Next letter in ascending cyclic alphabetic order. -/
def nextLetter : Letter → Letter
  | .A => .B
  | .B => .C
  | .C => .D
  | .D => .E
  | .E => .F
  | .F => .G
  | .G => .A

/-- A note name: a letter and a signed accidental count (negative = flat). -/
structure Note where
  letter : Letter
  acc : Int
deriving DecidableEq

/-- Display character of a letter. -/
def letterChar : Letter → Char
  | .A => 'A'
  | .B => 'B'
  | .C => 'C'
  | .D => 'D'
  | .E => 'E'
  | .F => 'F'
  | .G => 'G'

/-- Render a note name as text, e.g. `F##` or `Bbb`. -/
def noteName (n : Note) : String :=
  let accStr := if n.acc ≥ 0 then String.mk (List.replicate n.acc.toNat '#')
                else String.mk (List.replicate (-n.acc).toNat 'b')
  String.mk [letterChar n.letter] ++ accStr

/-- Modelled from the spec: the canonical binomial spelling of each of the 12
pitch classes, e.g. `C#|Db` (missing nomenclature module). -/
def BINOMIALS : List String :=
  ["C", "C#|Db", "D", "D#|Eb", "E", "F", "F#|Gb", "G", "G#|Ab", "A", "A#|Bb", "B"]

/-- Pitch class of a note as an integer in 0..11. -/
def notePc (n : Note) : Int := (letterPc n.letter + n.acc) % 12

/-- Modelled from the spec: `decode_enharmonic` collapses an arbitrarily
multiply-accidented note to its unique pitch class together with its canonical
binomial spelling (missing nomenclature module). -/
def decode_enharmonic (n : Note) : Int × String :=
  (notePc n, BINOMIALS.getD (notePc n).toNat "")

/-- Modelled from the spec: `encode_enharmonic` re-spells a pitch class under
a different letter, computing whatever accidental count (possibly above 2) is
required (missing nomenclature module). -/
def encode_enharmonic (target : Letter) (n : Note) : Note :=
  let d := (notePc n - letterPc target) % 12
  ⟨target, if d ≤ 6 then d else d - 12⟩

/- ## Bit-encoded interval structures -/

/-- Ascending list of the offsets present in a bit-encoded structure. -/
def offsets (s : Nat) : List Nat :=
  (List.range (s + 1)).filter (fun i => s.testBit i)

/-- Modelled from the spec: `close` folds every degree of a bit-encoded
structure to its smallest representative offset above the bass, collapsing a
multi-octave spread to within one octave (missing transform module). -/
def close (s : Nat) : Nat :=
  (List.range (s + 1)).foldl
    (fun acc i => if s.testBit i then acc ||| (1 <<< (i % 12)) else acc) 0

/- ## Offset-list structures, rotation, canonical registry -/

/-- Modelled from the spec: rotation of an ascending offset structure by `k`
scale steps under declared width `w`: the `k` lowest offsets are removed and
reinserted at `(original - offset_of_kth_lowest) + w`, and the remaining
offsets are rebased on the `k`-th lowest (missing structure model). -/
def rotateList (xs : List Nat) (w : Nat) (k : Nat) : List Nat :=
  match xs.drop k with
  | [] => xs
  | pivot :: rest => 0 :: rest.map (· - pivot) ++ (xs.take k).map (· + w - pivot)

/-- The fixed 7-member modal rotation sequence. -/
def MODAL_SERIES_KEYS : List String :=
  ["ionian", "dorian", "phrygian", "lydian", "mixolydian", "aeolian", "locrian"]

/-- Modelled from the spec: the ordered registry of canonical heptatonic base
forms with their interval structures, as listed in the notebook's
`HEPTATONIC_SCALES` table (missing constants module). Order is significant. -/
def HEPTATONIC_SCALES : List (String × List Nat) :=
  [ ("diatonic",        [0, 2, 4, 5, 7, 9, 11]),
    ("altered",         [0, 1, 3, 4, 6, 8, 10]),
    ("hemitonic",       [0, 1, 4, 5, 7, 9, 11]),
    ("hemiolic",        [0, 3, 4, 5, 7, 9, 11]),
    ("diminished",      [0, 2, 4, 5, 6, 9, 11]),
    ("augmented",       [0, 2, 4, 5, 8, 9, 11]),
    ("harmonic",        [0, 2, 4, 5, 7, 8, 11]),
    ("biseptimal",      [0, 2, 4, 5, 7, 10, 11]),
    ("paleochromatic",  [0, 1, 4, 5, 6, 9, 11]),
    ("enigmatic",       [0, 1, 4, 6, 8, 10, 11]),
    ("double_harmonic", [0, 1, 4, 5, 7, 8, 11]),
    ("neapolitan",      [0, 1, 3, 5, 7, 9, 11]),
    ("hungarian_major", [0, 3, 4, 6, 7, 9, 10]),
    ("persian",         [0, 1, 4, 5, 6, 8, 11]) ]

/-- Modelled from the spec: `resolve` scans the canonical forms in table
order, and within each form scans its seven modal rotations, returning the
first exact match as a `(scale_name, mode_name)` pair (missing resolver). -/
def resolve (s : List Nat) : Option (String × String) :=
  HEPTATONIC_SCALES.findSome? (fun nb =>
    (List.range 7).findSome? (fun k =>
      if rotateList nb.2 12 k = s then some (nb.1, MODAL_SERIES_KEYS.getD k "") else none))

/- ## Modal symbols -/

/-- Consume an expected token from the head of a character list, returning
the remaining characters when the token is present. -/
def stripToken : List Char → List Char → Option (List Char)
  | [], cs => some cs
  | _ :: _, [] => none
  | t :: ts, c :: cs => if c = t then stripToken ts cs else none

/-- Modelled from the spec: recognise the modal name heading a modal symbol,
returning its rotation index and the remaining modifier text (missing
parsing module). -/
def parseModeName (cs : List Char) : Option (Nat × List Char) :=
  (List.range 7).findSome? (fun k =>
    match stripToken (MODAL_SERIES_KEYS.getD k "").toList cs with
    | some rest => some (k, rest)
    | none => none)

/-- Semitone value of a natural (major-scale) degree numeral 1-7. -/
def naturalDegreePc (d : Nat) : Nat := [0, 0, 2, 4, 5, 7, 9, 11].getD d 0

/-- One parsed modal modifier: a signed accidental shift and a degree 2-7. -/
structure Modifier where
  shift : Int
  degree : Nat
deriving DecidableEq

/-- Whether a character is a degree numeral between 2 and 7. -/
def isDegreeChar (c : Char) : Bool := decide ('2' ≤ c) && decide (c ≤ '7')

/-- Numeric value of a digit character. -/
def degreeOfChar (c : Char) : Nat := c.toNat - '0'.toNat

/-- Modelled from the spec: parse the repeatable modifier tokens
`(#|b|nat)(digit 2-7)` of a modal symbol (missing parsing module). -/
def parseModifiers : List Char → Option (List Modifier)
  | [] => some []
  | '#' :: d :: rest =>
      if isDegreeChar d then (parseModifiers rest).map (⟨1, degreeOfChar d⟩ :: ·) else none
  | 'b' :: d :: rest =>
      if isDegreeChar d then (parseModifiers rest).map (⟨-1, degreeOfChar d⟩ :: ·) else none
  | 'n' :: 'a' :: 't' :: d :: rest =>
      if isDegreeChar d then (parseModifiers rest).map (⟨0, degreeOfChar d⟩ :: ·) else none
  | _ => none

/-- Insert a value into an ascending offset list, keeping it ascending. -/
def insertSorted (v : Nat) : List Nat → List Nat
  | [] => [v]
  | x :: xs => if v ≤ x then v :: x :: xs else x :: insertSorted v xs

/-- Modelled from the spec: apply one modal modifier as a replacement of the
corresponding scale degree, never additive, and a no-op when the degree
already carries the target value (missing resolver). -/
def applyModifier (xs : List Nat) (m : Modifier) : List Nat :=
  let old := xs.getD (m.degree - 1) 0
  let new := ((naturalDegreePc m.degree : Int) + m.shift).toNat
  if new = old then xs else insertSorted new (xs.erase old)

/-- Modelled from the spec: `resolve_modal_symbol` parses a
`<mode><#|b|nat><digit 2-7>` symbol, starts from the diatonic rotation for
the mode, applies each modifier as a degree replacement, and re-resolves the
mutated structure through `resolve` — the mandatory second pass that reports
the true ancestor form (missing resolver). -/
def resolve_modal_symbol (s : String) : Option (String × String) := do
  let (k, rest) ← parseModeName s.toList
  let mods ← parseModifiers rest
  let base := rotateList [0, 2, 4, 5, 7, 9, 11] 12 k
  resolve (mods.foldl applyModifier base)


/- ## Bit-level lemmas for close -/

theorem lt_twoPow (i : Nat) : i < 2 ^ i := by
  induction i with
  | zero => decide
  | succ n ih =>
    have h1 : 0 < 2 ^ n := Nat.pos_pow_of_pos n (by decide)
    have h2 : 2 ^ (n + 1) = 2 ^ n * 2 := Nat.pow_succ 2 n
    omega

theorem testBit_close_foldl (s : Nat) (l : List Nat) (a : Nat) (j : Nat) :
    (l.foldl (fun acc i => if s.testBit i then acc ||| (1 <<< (i % 12)) else acc) a).testBit j
      = (a.testBit j || l.any (fun i => s.testBit i && decide (i % 12 = j))) := by
  induction l generalizing a with
  | nil => simp
  | cons x xs ih =>
    simp only [List.foldl_cons, List.any_cons, ih]
    by_cases hx : s.testBit x
    · simp [hx, Nat.shiftLeft_eq, Nat.testBit_two_pow, Bool.or_assoc]
    · simp [hx]

theorem testBit_close (s j : Nat) :
    (close s).testBit j = true ↔ ∃ i, s.testBit i = true ∧ i % 12 = j := by
  unfold close
  rw [testBit_close_foldl]
  simp only [Nat.zero_testBit, Bool.false_or, List.any_eq_true, List.mem_range,
    Bool.and_eq_true, decide_eq_true_eq]
  constructor
  · rintro ⟨i, _, hb, hm⟩
    exact ⟨i, hb, hm⟩
  · rintro ⟨i, hb, hm⟩
    have h1 : 2 ^ i ≤ s := Nat.testBit_implies_ge hb
    have h2 : i < 2 ^ i := lt_twoPow i
    exact ⟨i, by omega, hb, hm⟩

/- ## Heptatonic spelling and the scale endpoint -/

/-- Letter reached after `i` ascending alphabetic steps. -/
def letterAfter : Nat → Letter → Letter
  | 0, l => l
  | n + 1, l => letterAfter n (nextLetter l)

/-- Modelled from the spec: `force_heptatonic_spelling` assigns each degree of
a structure exactly one letter in ascending cyclic order from the keynote's
letter, deriving the accidental count of each degree from its chromatic
distance to the natural letter (missing nomenclature module). -/
def forceHeptatonicSpelling (offs : List Nat) (key : Note) : List Note :=
  (List.range offs.length).map (fun i =>
    let l := letterAfter i key.letter
    let d := (notePc key + (offs.getD i 0 : Int) - letterPc l) % 12
    ⟨l, if d ≤ 6 then d else d - 12⟩)

/-- Standard candidate spellings of a pitch class: the natural letter, or the
sharp and flat members of its binomial pair. -/
def spellingsOfPc : Nat → List Note
  | 0 => [⟨.C, 0⟩]
  | 1 => [⟨.C, 1⟩, ⟨.D, -1⟩]
  | 2 => [⟨.D, 0⟩]
  | 3 => [⟨.D, 1⟩, ⟨.E, -1⟩]
  | 4 => [⟨.E, 0⟩]
  | 5 => [⟨.F, 0⟩]
  | 6 => [⟨.F, 1⟩, ⟨.G, -1⟩]
  | 7 => [⟨.G, 0⟩]
  | 8 => [⟨.G, 1⟩, ⟨.A, -1⟩]
  | 9 => [⟨.A, 0⟩]
  | 10 => [⟨.A, 1⟩, ⟨.B, -1⟩]
  | 11 => [⟨.B, 0⟩]
  | _ => []

/-- Total accidental count of a rendering, used to rank candidate keynotes. -/
def spellingCost (offs : List Nat) (key : Note) : Nat :=
  ((forceHeptatonicSpelling offs key).map (fun n => n.acc.natAbs)).sum

/-- Modelled from the spec: the recommended keynote is the enharmonic
spelling of the requested keynote whose forced rendering carries the fewest
accidentals (missing endpoint module). -/
def recommendedKeynote (offs : List Nat) (key : Note) : Note :=
  (spellingsOfPc (notePc key).toNat).foldl
    (fun best c => if spellingCost offs c < spellingCost offs best then c else best) key

/-- Letter named by a character, if any. -/
def letterOfChar : Char → Option Letter
  | 'A' => some .A
  | 'B' => some .B
  | 'C' => some .C
  | 'D' => some .D
  | 'E' => some .E
  | 'F' => some .F
  | 'G' => some .G
  | _ => none

/-- Consume a leading run of accidental characters, summing their values. -/
def parseAccCount : List Char → Int × List Char
  | '#' :: rest => let p := parseAccCount rest; (p.1 + 1, p.2)
  | 'b' :: rest => let p := parseAccCount rest; (p.1 - 1, p.2)
  | cs => (0, cs)

/-- Parse a complete plain note name such as `D#` or `Eb`. -/
def parseNote (s : String) : Option Note :=
  match s.toList with
  | c :: rest =>
    match letterOfChar c with
    | some l =>
      let p := parseAccCount rest
      if p.2 = [] then some ⟨l, p.1⟩ else none
    | none => none
  | [] => none

/-- Modelled from the spec: the `get_heptatonic_scale` endpoint looks the
requested scale form up in the registry and reports the note-name rendering
under the requested keynote together with the rendering under the
recommended keynote; the full report carries further fields not needed here
(missing api module). -/
def get_heptatonic_scale (keynote : String) (scale_name : String) :
    Option (List String × List String) := do
  let key ← parseNote keynote
  let entry ← HEPTATONIC_SCALES.find? (fun p => p.1 == scale_name)
  let requested := (forceHeptatonicSpelling entry.2 key).map noteName
  let rkey := recommendedKeynote entry.2 key
  let recommended := (forceHeptatonicSpelling entry.2 rkey).map noteName
  return (requested, recommended)

/- ## Chord value objects -/

/-- Rotate a list left by `k` positions. -/
def rotateL {α : Type} (xs : List α) (k : Nat) : List α := xs.drop k ++ xs.take k

/-- Modelled from the spec: an immutable chord value (missing classes
module). The root fields record the chord in close root position; the
applied inversion count and voicing pattern are carried as state, and the
rendered fields below are derived from them. -/
structure Chord where
  base_symbol : String
  root_names : List String
  root_structure : List Nat
  inversion : Nat
  pattern : List Nat
deriving DecidableEq

/-- Note names of the chord's current inversion in close voicing. -/
def Chord.closeNames (c : Chord) : List String := rotateL c.root_names c.inversion

/-- Offsets of the chord's current inversion in close voicing. -/
def Chord.closeStructure (c : Chord) : List Nat := rotateList c.root_structure 12 c.inversion

/-- Insert one named offset into a list ascending by offset. -/
def insertPairSorted (v : String × Nat) :
    List (String × Nat) → List (String × Nat)
  | [] => [v]
  | x :: xs => if v.2 ≤ x.2 then v :: x :: xs else x :: insertPairSorted v xs

/-- Insertion sort of named offsets by ascending offset. -/
def sortPairs : List (String × Nat) → List (String × Nat)
  | [] => []
  | x :: xs => insertPairSorted x (sortPairs xs)

/-- Modelled from the spec: a voicing pattern names 1-indexed positions of
the current close structure to displace by an octave; displacing a degree
already above the octave boundary is a no-op, and the result is listed in
ascending offset order (missing transform module). -/
def applyPattern (p : List Nat) (pairs : List (String × Nat)) :
    List (String × Nat) :=
  if p = [] then pairs
  else sortPairs (pairs.enum.map (fun ip =>
    if (ip.1 + 1) ∈ p ∧ ip.2.2 < 12 then (ip.2.1, ip.2.2 + 12) else ip.2))

/-- Current (name, offset) pairs of a chord after inversion and voicing. -/
def Chord.currentPairs (c : Chord) : List (String × Nat) :=
  applyPattern c.pattern (c.closeNames.zip c.closeStructure)

/-- Rendered note names of a chord, ascending by offset. -/
def Chord.note_names (c : Chord) : List String := c.currentPairs.map Prod.fst

/-- Rendered interval structure of a chord, ascending from the bass. -/
def Chord.interval_structure (c : Chord) : List Nat := c.currentPairs.map Prod.snd

/-- Modelled from the spec: an inverted chord renders as the un-inverted
symbol followed by a slash and the new bass (missing classes module). -/
def Chord.chord_symbol (c : Chord) : String :=
  if c.inversion % c.root_names.length = 0 then c.base_symbol
  else c.base_symbol ++ "/" ++ c.closeNames.headD ""

/-- Whether every rendered offset lies within one octave of the bass. -/
def Chord.isClose (c : Chord) : Bool := c.interval_structure.all (· < 12)

/-- Modelled from the spec: revert a chord to the close voicing of its
current inversion by discarding the applied voicing pattern (missing
transform module). -/
def Chord.close (c : Chord) : Chord := { c with pattern := [] }

/-- Modelled from the spec: apply a voicing pattern to a chord (missing
classes module). -/
def Chord.voicing (c : Chord) (p : List Nat) : Chord := { c with pattern := p }

/-- Modelled from the spec: invert a chord; a chord that is not currently
close-voiced reverts to its close voicing first, discarding any prior
voicing, and the requested rotation is then applied from the chord's root
form (missing classes module). -/
def Chord.invert (c : Chord) (n : Nat) : Chord :=
  let cc := if c.isClose then c else c.close
  { cc with inversion := n, pattern := [] }

/-- The drop-2 voicing pattern `D2` of the constants module. -/
def DROP_2_VOICING : List Nat := [2]

/-- The drop-3 voicing pattern `D3` of the constants module. -/
def DROP_3_VOICING : List Nat := [2, 3]

/- ## Chord symbol parsing -/

/-- Modelled from the spec: the quality-suffix lookup table of the chord
symbol grammar, mapping a suffix to its interval structure; a missing third
or fifth is implied unless a symbol overrides it (missing parsing module). -/
def CHORD_QUALITIES : List (String × List Nat) :=
  [ ("", [0, 4, 7]),
    ("5", [0, 7]),
    ("maj", [0, 4, 7]),
    ("min", [0, 3, 7]),
    ("maj#5", [0, 4, 8]),
    ("aug", [0, 4, 8]),
    ("minb5", [0, 3, 6]),
    ("dim", [0, 3, 6]),
    ("maj7", [0, 4, 7, 11]),
    ("7", [0, 4, 7, 10]),
    ("min7", [0, 3, 7, 10]),
    ("min7b5", [0, 3, 6, 10]),
    ("dim7", [0, 3, 6, 9]),
    ("sus2", [0, 2, 7]),
    ("sus4", [0, 5, 7]) ]

/-- Modelled from the spec: `parse_chord_symbol` reads a leading note letter,
then consumes every immediately following accidental character as part of the
note's pitch — never as an alteration of the chord's fifth — and finally
resolves the remaining suffix through the quality table (missing parsing
module). -/
def parseChordChars : List Char → Option (Note × List Nat)
  | [] => none
  | c :: rest =>
    match letterOfChar c with
    | some l =>
      let p := parseAccCount rest
      match CHORD_QUALITIES.find? (fun q => q.1.toList == p.2) with
      | some q => some (⟨l, p.1⟩, q.2)
      | none => none
    | none => none

/-- Entry point of the chord-symbol parser on strings. -/
def parse_chord_symbol (s : String) : Option (Note × List Nat) :=
  parseChordChars s.toList

/- ## Chordify and the bit encoding of offset lists -/

/-- Modelled from the spec: `chordify` selects every `step`-th remaining
scale tone starting at 1-indexed `start_degree`, wrapping upward by octaves,
and produces a new structure relative to the chosen bass (missing transform
module). -/
def chordify (scale : List Nat) (step : Nat) (start : Nat) (count : Nat) :
    List Nat :=
  let tone := fun idx => scale.getD (idx % scale.length) 0 + 12 * (idx / scale.length)
  ((List.range count).map (fun i => tone ((start - 1) + i * step))).map
    (· - tone (start - 1))

/-- Bit encoding of an offset list: the integer whose set bits are the
offsets, least significant bit as bass. -/
def maskOfList (xs : List Nat) : Nat :=
  xs.foldl (fun a o => a ||| (1 <<< o)) 0

/- ## The sequence module's cluster contour (from source) -/

/-- The `while` loop of `build_cluster_contour`: repeatedly append the
original pattern until the working copy reaches the sequence length. The
source loops forever on an empty pattern; the guard on `orig` makes the
embedding total and is never taken for the non-empty patterns the module
defines. -/
def extendPattern (orig : List Bool) (cur : List Bool) (n : Nat) : List Bool :=
  if h : cur.length < n ∧ orig ≠ [] then
    extendPattern orig (cur ++ orig) n
  else cur
termination_by n - cur.length
decreasing_by
  have hpos : 0 < orig.length := List.length_pos.mpr h.2
  simp only [List.length_append]
  omega

/-- Embedded from the source `build_cluster_contour`: cyclically extend the
boolean pattern to the length of the sequence, then emit each cluster,
reversed exactly when the extended pattern is true at its index. The
source's diagnostic `print` is omitted. -/
def build_cluster_contour (sequence : List (List String)) (pattern : List Bool) :
    List (List String) :=
  let pattern_ := extendPattern pattern pattern sequence.length
  sequence.enum.map (fun ic => if pattern_.getD ic.1 false then ic.2.reverse else ic.2)

/-- The supertonic tertial tetrad of the C major scale, `Dmin7`, used as a
concrete sample chord. -/
def dmin7ii : Chord := ⟨"Dmin7", ["D", "F", "A", "C"], [0, 3, 7, 10], 0, []⟩

/-- The contour pattern constants of the sequence module. -/
def RISING_RISING : List Bool := [false, false]

/-- Contour pattern reversing every odd-indexed cluster. -/
def RISING_FALLING : List Bool := [false, true]

/-- Contour pattern reversing every even-indexed cluster. -/
def FALLING_RISING : List Bool := [true, false]

/-- Contour pattern reversing every cluster. -/
def FALLING_FALLING : List Bool := [true, true]

/- ## Helper lemmas -/

theorem testBit_maskOfList_foldl (l : List Nat) (a j : Nat) :
    (l.foldl (fun a o => a ||| (1 <<< o)) a).testBit j
      = (a.testBit j || l.any (fun o => decide (o = j))) := by
  induction l generalizing a with
  | nil => simp
  | cons x xs ih =>
    rw [List.foldl_cons, ih]
    simp [Nat.shiftLeft_eq, Nat.testBit_two_pow, Bool.or_assoc]

theorem maskOfList_odd (xs : List Nat) (h : 0 ∈ xs) : maskOfList xs % 2 = 1 := by
  apply Nat.mod_two_eq_one_iff_testBit_zero.mpr
  unfold maskOfList
  rw [testBit_maskOfList_foldl]
  simp only [Nat.zero_testBit, Bool.false_or, List.any_eq_true, decide_eq_true_eq]
  exact ⟨0, h, rfl⟩

theorem rotateL_length {α : Type} (xs : List α) (k : Nat) :
    (rotateL xs k).length = xs.length := by
  simp [rotateL]
  omega

theorem rotateList_length (xs : List Nat) (w k : Nat) (h : k < xs.length) :
    (rotateList xs w k).length = xs.length := by
  unfold rotateList
  cases hd : xs.drop k with
  | nil => rfl
  | cons pivot rest =>
    have := List.length_drop k xs
    rw [hd] at this
    simp at this ⊢
    omega

theorem rotateList_cons (xs : List Nat) (w k : Nat) (h : k < xs.length) :
    ∃ t, rotateList xs w k = 0 :: t := by
  unfold rotateList
  cases hd : xs.drop k with
  | nil =>
    have := List.length_drop k xs
    rw [hd] at this
    simp at this
    omega
  | cons pivot rest => exact ⟨_, rfl⟩

theorem rotateList_mem_zero (xs : List Nat) (w k : Nat) (h : k < xs.length) :
    0 ∈ rotateList xs w k := by
  obtain ⟨t, ht⟩ := rotateList_cons xs w k h
  rw [ht]
  exact List.mem_cons_self 0 t

theorem drop_headD_eq_getD {α : Type} (xs : List α) (n : Nat) (d : α) :
    (xs.drop n).headD d = xs.getD n d := by
  induction xs generalizing n with
  | nil => simp
  | cons a t ih =>
    cases n with
    | zero => simp
    | succ m => exact ih m

theorem rotateL_headD {α : Type} (xs : List α) (n : Nat) (d : α) (h : n < xs.length) :
    (rotateL xs n).headD d = xs.getD n d := by
  rw [rotateL]
  cases hd : xs.drop n with
  | nil =>
    have := List.length_drop n xs
    rw [hd] at this
    simp at this
    omega
  | cons a t =>
    have h2 := drop_headD_eq_getD xs n d
    rw [hd] at h2
    simpa using h2

theorem invert_eq_mk (c : Chord) (n : Nat) :
    c.invert n = ⟨c.base_symbol, c.root_names, c.root_structure, n, []⟩ := by
  unfold Chord.invert Chord.close
  dsimp only
  split <;> rfl

theorem mem_insertPairSorted (v x : String × Nat) (l : List (String × Nat)) :
    x ∈ insertPairSorted v l ↔ x = v ∨ x ∈ l := by
  induction l with
  | nil => simp [insertPairSorted]
  | cons a t ih =>
    unfold insertPairSorted
    split
    · simp
    · simp [ih]
      tauto

theorem mem_sortPairs (x : String × Nat) (l : List (String × Nat)) :
    x ∈ sortPairs l ↔ x ∈ l := by
  induction l with
  | nil => simp [sortPairs]
  | cons a t ih => simp [sortPairs, mem_insertPairSorted, ih]

theorem invert_note_names (c : Chord) (n : Nat)
    (hlen : c.root_names.length = c.root_structure.length)
    (h : n < c.root_structure.length) :
    (c.invert n).note_names = rotateL c.root_names n := by
  rw [invert_eq_mk]
  unfold Chord.note_names Chord.currentPairs applyPattern Chord.closeNames Chord.closeStructure
  simp only [if_pos rfl]
  apply List.map_fst_zip
  rw [rotateL_length, rotateList_length _ _ _ h, hlen]

theorem invert_interval_structure (c : Chord) (n : Nat)
    (hlen : c.root_names.length = c.root_structure.length)
    (h : n < c.root_structure.length) :
    (c.invert n).interval_structure = rotateList c.root_structure 12 n := by
  rw [invert_eq_mk]
  unfold Chord.interval_structure Chord.currentPairs applyPattern Chord.closeNames Chord.closeStructure
  simp only [if_pos rfl]
  apply List.map_snd_zip
  rw [rotateL_length, rotateList_length _ _ _ h, hlen]

theorem letterOfChar_letterChar (l : Letter) : letterOfChar (letterChar l) = some l := by
  cases l <;> rfl

theorem parseAccCount_cons_sharp (rest : List Char) :
    parseAccCount ('#' :: rest) = ((parseAccCount rest).1 + 1, (parseAccCount rest).2) := rfl

theorem parseAccCount_cons_flat (rest : List Char) :
    parseAccCount ('b' :: rest) = ((parseAccCount rest).1 - 1, (parseAccCount rest).2) := rfl

theorem parseAccCount_cons_other (c : Char) (hc : c ≠ '#' ∧ c ≠ 'b') (cs : List Char) :
    parseAccCount (c :: cs) = (0, c :: cs) := by
  unfold parseAccCount
  split
  next h => injection h with h1 _; exact absurd h1 hc.1
  next h => injection h with h1 _; exact absurd h1 hc.2
  next => rfl

theorem parseAccCount_sharp (k : Nat) (c : Char) (hc : c ≠ '#' ∧ c ≠ 'b') (cs : List Char) :
    parseAccCount (List.replicate k '#' ++ (c :: cs)) = ((k : Int), c :: cs) := by
  induction k with
  | zero =>
    simp only [List.replicate_zero, List.nil_append, Nat.cast_zero]
    exact parseAccCount_cons_other c hc cs
  | succ m ih =>
    rw [List.replicate_succ, List.cons_append, parseAccCount_cons_sharp, ih]
    simp [Prod.ext_iff]

theorem parseAccCount_flat (k : Nat) (c : Char) (hc : c ≠ '#' ∧ c ≠ 'b') (cs : List Char) :
    parseAccCount (List.replicate k 'b' ++ (c :: cs)) = (-(k : Int), c :: cs) := by
  induction k with
  | zero =>
    simp only [List.replicate_zero, List.nil_append, Nat.cast_zero, Int.neg_zero]
    exact parseAccCount_cons_other c hc cs
  | succ m ih =>
    rw [List.replicate_succ, List.cons_append, parseAccCount_cons_flat, ih]
    simp [Prod.ext_iff]
    omega

theorem chordify_mem_zero (scale : List Nat) (step start count : Nat)
    (h : 1 ≤ count) :
    0 ∈ chordify scale step start count := by
  unfold chordify
  simp only [List.map_map, List.mem_map, List.mem_range, Function.comp]
  exact ⟨0, by omega, by simp⟩

theorem parse_mem_zero (s : String) (r : Note × List Nat)
    (h : parse_chord_symbol s = some r) : 0 ∈ r.2 := by
  unfold parse_chord_symbol at h
  cases hcs : s.toList with
  | nil => rw [hcs] at h; exact absurd h (by simp [parseChordChars])
  | cons c rest =>
    rw [hcs] at h
    simp only [parseChordChars] at h
    cases hl : letterOfChar c with
    | none => rw [hl] at h; simp at h
    | some l =>
      rw [hl] at h
      simp only at h
      cases hf : CHORD_QUALITIES.find?
          (fun q => q.1.toList == (parseAccCount rest).2) with
      | none => rw [hf] at h; simp at h
      | some q =>
        rw [hf] at h
        simp only [Option.some.injEq] at h
        have hq : q ∈ CHORD_QUALITIES := List.mem_of_find?_eq_some hf
        have hall : ∀ p ∈ CHORD_QUALITIES, 0 ∈ p.2 := by decide
        have := hall q hq
        rw [← h]
        exact this

/-- The flattened repetition of a list indexes cyclically. -/
theorem flatten_replicate_getD (orig : List Bool) (k j : Nat)
    (h : j < ((List.replicate k orig).flatten).length) :
    ((List.replicate k orig).flatten).getD j false
      = orig.getD (j % orig.length) false := by
  induction k generalizing j with
  | zero => simp at h
  | succ m ih =>
    rw [List.replicate_succ, List.flatten_cons] at h ⊢
    by_cases hj : j < orig.length
    · rw [List.getD_eq_getElem?_getD, List.getElem?_append_left hj,
        ← List.getD_eq_getElem?_getD, Nat.mod_eq_of_lt hj]
    · have hle : orig.length ≤ j := Nat.le_of_not_lt hj
      have hlen : j - orig.length < ((List.replicate m orig).flatten).length := by
        rw [List.length_append] at h
        omega
      rw [List.getD_eq_getElem?_getD, List.getElem?_append_right hle,
        ← List.getD_eq_getElem?_getD, ih _ hlen]
      have hj2 : j = (j - orig.length) + orig.length := by omega
      conv_rhs => rw [hj2, Nat.add_mod_right]

theorem extendPattern_aux (orig : List Bool) (ho : orig ≠ []) (m : Nat) :
    ∀ (cur : List Bool) (n : Nat), n - cur.length ≤ m →
      (∃ k, 0 < k ∧ cur = (List.replicate k orig).flatten) →
      ∃ k, 0 < k ∧ extendPattern orig cur n = (List.replicate k orig).flatten
        ∧ n ≤ ((List.replicate k orig).flatten).length := by
  induction m with
  | zero =>
    rintro cur n hm ⟨k, hk, hcur⟩
    rw [extendPattern, dif_neg (fun hc => by omega)]
    exact ⟨k, hk, hcur, by rw [← hcur]; omega⟩
  | succ m ih =>
    rintro cur n hm ⟨k, hk, hcur⟩
    rw [extendPattern]
    by_cases hc : cur.length < n
    · rw [dif_pos ⟨hc, ho⟩]
      apply ih
      · have hpos : 0 < orig.length := List.length_pos.mpr ho
        simp only [List.length_append]
        omega
      · refine ⟨k + 1, by omega, ?_⟩
        rw [hcur, List.replicate_succ', List.flatten_append]
        simp
    · rw [dif_neg (fun hcc => hc hcc.1)]
      exact ⟨k, hk, hcur, by rw [← hcur]; omega⟩

theorem extendPattern_spec (pattern : List Bool) (hp : pattern ≠ []) (n : Nat) :
    ∃ k, 0 < k ∧ extendPattern pattern pattern n = (List.replicate k pattern).flatten
      ∧ n ≤ ((List.replicate k pattern).flatten).length :=
  extendPattern_aux pattern hp (n - pattern.length) pattern n (Nat.le_refl _)
    ⟨1, Nat.one_pos, by simp⟩

theorem voicing_mem_zero (c : Chord) (p : List Nat)
    (hlen : c.root_names.length = c.root_structure.length)
    (hinv : c.inversion < c.root_structure.length)
    (hp : 1 ∉ p) :
    0 ∈ (c.voicing p).interval_structure := by
  obtain ⟨t, ht⟩ := rotateList_cons c.root_structure 12 c.inversion hinv
  have hlen2 : c.closeNames.length = c.root_names.length := rotateL_length _ _
  cases hnm : c.closeNames with
  | nil =>
    rw [hnm] at hlen2
    simp at hlen2
    omega
  | cons nm tl =>
    have e1 : (c.voicing p).closeNames = nm :: tl := hnm
    have e2 : (c.voicing p).closeStructure = 0 :: t := ht
    unfold Chord.interval_structure Chord.currentPairs
    rw [e1, e2]
    have e3 : (c.voicing p).pattern = p := rfl
    rw [e3]
    unfold applyPattern
    by_cases hpe : p = []
    · rw [if_pos hpe]
      simp [List.zip_cons_cons]
    · rw [if_neg hpe]
      simp only [List.mem_map]
      refine ⟨(nm, 0), ?_, rfl⟩
      rw [mem_sortPairs]
      rw [List.zip_cons_cons, List.enum_cons, List.map_cons]
      apply List.mem_cons.mpr
      left
      rw [if_neg]
      intro hcon
      exact hp (by simpa using hcon.1)

theorem bcc_getD (sequence : List (List String)) (pattern : List Bool)
    (i : Nat) (h : i < sequence.length) :
    (build_cluster_contour sequence pattern).getD i []
      = (if (extendPattern pattern pattern sequence.length).getD i false
         then (sequence.getD i []).reverse else sequence.getD i []) := by
  unfold build_cluster_contour
  rw [List.getD_eq_getElem?_getD, List.getElem?_map, List.enum_eq_enumFrom,
    List.getElem?_enumFrom, List.getElem?_eq_getElem h]
  simp only [Option.map_some', Option.getD_some, Nat.zero_add]
  simp only [List.getD_eq_getElem?_getD, List.getElem?_eq_getElem h, Option.getD_some]

/- ## Claim theorems -/

/-- C1: inverting a chord that is not currently close-voiced first collapses
it to its close voicing, discarding any prior voicing, before the rotation
is applied; consequently `voicing(c, p).invert(n)` equals `invert(c, n)`,
and `chord.invert(2).voicing(DROP_2).invert(2)` equals `chord.invert(2)`
alone. -/
theorem invert_discards_voicing (c : Chord) (p : List Nat) (n : Nat) :
    (c.isClose = false → c.invert n = (c.close).invert n)
    ∧ (c.voicing p).invert n = c.invert n
    ∧ ((c.invert 2).voicing DROP_2_VOICING).invert 2 = c.invert 2 := by
  refine ⟨fun _ => ?_, ?_, ?_⟩ <;> (rw [invert_eq_mk, invert_eq_mk]; rfl)

/-- Witness for C1: the drop-2 voiced second inversion of `Dmin7` is not
close-voiced, and inverting it discards the voicing. -/
theorem invert_discards_voicing_witness :
    (dmin7ii.voicing DROP_2_VOICING).isClose = false
    ∧ (dmin7ii.voicing DROP_2_VOICING).invert 2
        = ((dmin7ii.voicing DROP_2_VOICING).close).invert 2
    ∧ ((dmin7ii.voicing DROP_2_VOICING).voicing DROP_2_VOICING).invert 2
        = (dmin7ii.voicing DROP_2_VOICING).invert 2
    ∧ (((dmin7ii.voicing DROP_2_VOICING).invert 2).voicing DROP_2_VOICING).invert 2
        = (dmin7ii.voicing DROP_2_VOICING).invert 2 := by
  have h := invert_discards_voicing (dmin7ii.voicing DROP_2_VOICING) DROP_2_VOICING 2
  exact ⟨by decide, h.1 (by decide), h.2.1, h.2.2⟩

/-- C2 counterexample: `get_heptatonic_scale "D#" "altered"` does not return
the claimed pair of renderings; the altered scale on D# is spelled
`(D#, E, F#, G, A, B, C#)` and its recommended keynote is D# itself. -/
theorem altered_scenario_counterexample :
    ¬ (get_heptatonic_scale "D#" "altered"
        = some (["D#", "E#", "F##", "G#", "A#", "B#", "C##"],
                ["Eb", "F", "G", "Ab", "Bb", "C", "D"])) := by
  decide

/-- C2 amended: with the default diatonic scale — the call the notebook
records — the D# request renders `(D#, E#, F##, G#, A#, B#, C##)` and the
recommended rendering is `(Eb, F, G, Ab, Bb, C, D)`. -/
theorem diatonic_scenario_renderings :
    get_heptatonic_scale "D#" "diatonic"
      = some (["D#", "E#", "F##", "G#", "A#", "B#", "C##"],
              ["Eb", "F", "G", "Ab", "Bb", "C", "D"]) := by
  decide

/-- C3: for every canonical base form of the registry and every mode index
`m + 1` with `m < 7`, resolving the rotation of the base by `m` scale steps
returns the base form's name paired with the `(m + 1)`-th name of the fixed
modal sequence. -/
theorem modal_closure :
    ∀ i, i < 14 → ∀ m, m < 7 →
      resolve (rotateList (HEPTATONIC_SCALES.getD i ("", [])).2 12 m)
        = some ((HEPTATONIC_SCALES.getD i ("", [])).1, MODAL_SERIES_KEYS.getD m "") := by
  decide

/-- Witness for C3: the sixth mode of the altered scale resolves to
`(altered, aeolian)`. -/
theorem modal_closure_witness :
    1 < 14 ∧ 5 < 7
    ∧ resolve (rotateList (HEPTATONIC_SCALES.getD 1 ("", [])).2 12 5)
        = some ((HEPTATONIC_SCALES.getD 1 ("", [])).1, MODAL_SERIES_KEYS.getD 5 "") :=
  ⟨by decide, by decide, modal_closure 1 (by decide) 5 (by decide)⟩

/-- C4: `resolve_modal_symbol "mixolydianb6"` replaces the sixth degree of
the diatonic mixolydian rotation and reports the true ancestor form
`(altered, aeolian)`. -/
theorem mixolydian_b6_resolution :
    resolve_modal_symbol "mixolydianb6" = some ("altered", "aeolian") := by
  decide

/-- C5: `close` is idempotent — folding a structure into one octave twice
gives the same bit-encoded structure as folding it once. -/
theorem close_idempotent (s : Nat) : close (close s) = close s := by
  apply Nat.eq_of_testBit_eq
  intro j
  rw [Bool.eq_iff_iff, testBit_close, testBit_close]
  constructor
  · rintro ⟨i, hi, hm⟩
    rcases (testBit_close s i).mp hi with ⟨i2, hb2, hm2⟩
    exact ⟨i2, hb2, by omega⟩
  · rintro ⟨i, hb, hm⟩
    exact ⟨i % 12, (testBit_close s (i % 12)).mpr ⟨i, hb, rfl⟩, by omega⟩

/-- C6: offset 0 (the bass) is present in every structure produced by the
operations of the system — the registry forms, rotation, close, chordify,
chord-symbol parsing, inversion and voicing — and, equivalently, every such
structure is odd in the integer bit encoding. -/
theorem bass_offset_invariant :
    (∀ i, i < 14 → (HEPTATONIC_SCALES.getD i ("", [])).2.headD 1 = 0
      ∧ maskOfList (HEPTATONIC_SCALES.getD i ("", [])).2 % 2 = 1)
    ∧ (∀ (xs : List Nat) (w k : Nat), k < xs.length →
        0 ∈ rotateList xs w k ∧ maskOfList (rotateList xs w k) % 2 = 1)
    ∧ (∀ s : Nat, s % 2 = 1 → close s % 2 = 1)
    ∧ (∀ (scale : List Nat) (step start count : Nat), 1 ≤ count →
        0 ∈ chordify scale step start count
        ∧ maskOfList (chordify scale step start count) % 2 = 1)
    ∧ (∀ (s : String) (r : Note × List Nat), parse_chord_symbol s = some r →
        0 ∈ r.2 ∧ maskOfList r.2 % 2 = 1)
    ∧ (∀ (c : Chord) (n : Nat), c.root_names.length = c.root_structure.length →
        n < c.root_structure.length →
        0 ∈ (c.invert n).interval_structure
        ∧ maskOfList (c.invert n).interval_structure % 2 = 1)
    ∧ (∀ (c : Chord) (p : List Nat), c.root_names.length = c.root_structure.length →
        c.inversion < c.root_structure.length → 1 ∉ p →
        0 ∈ (c.voicing p).interval_structure
        ∧ maskOfList (c.voicing p).interval_structure % 2 = 1) := by
  refine ⟨by decide, ?_, ?_, ?_, ?_, ?_, ?_⟩
  · intro xs w k h
    exact ⟨rotateList_mem_zero xs w k h, maskOfList_odd _ (rotateList_mem_zero xs w k h)⟩
  · intro s hs
    apply Nat.mod_two_eq_one_iff_testBit_zero.mpr
    exact (testBit_close s 0).mpr ⟨0, Nat.mod_two_eq_one_iff_testBit_zero.mp hs, rfl⟩
  · intro scale step start count h
    have hm := chordify_mem_zero scale step start count h
    exact ⟨hm, maskOfList_odd _ hm⟩
  · intro s r h
    have hm := parse_mem_zero s r h
    exact ⟨hm, maskOfList_odd _ hm⟩
  · intro c n hlen h
    have hm : 0 ∈ (c.invert n).interval_structure := by
      rw [invert_interval_structure c n hlen h]
      exact rotateList_mem_zero _ _ _ h
    exact ⟨hm, maskOfList_odd _ hm⟩
  · intro c p hlen hinv hp
    have hm := voicing_mem_zero c p hlen hinv hp
    exact ⟨hm, maskOfList_odd _ hm⟩

/-- Witness for C6: each component of the invariant evaluated at a concrete
input — the hemiolic registry form, a rotated triad, the diatonic mask, a
tertial tetrad, the parse of `C#5`, and the inverted and voiced `Dmin7`. -/
theorem bass_offset_invariant_witness :
    (3 < 14 ∧ (HEPTATONIC_SCALES.getD 3 ("", [])).2.headD 1 = 0
      ∧ maskOfList (HEPTATONIC_SCALES.getD 3 ("", [])).2 % 2 = 1)
    ∧ (2 < List.length [0, 4, 7] ∧ 0 ∈ rotateList [0, 4, 7] 12 2
      ∧ maskOfList (rotateList [0, 4, 7] 12 2) % 2 = 1)
    ∧ ((2741 : Nat) % 2 = 1 ∧ close 2741 % 2 = 1)
    ∧ (1 ≤ 4 ∧ 0 ∈ chordify [0, 2, 4, 5, 7, 9, 11] 2 2 4
      ∧ maskOfList (chordify [0, 2, 4, 5, 7, 9, 11] 2 2 4) % 2 = 1)
    ∧ (parse_chord_symbol "C#5" = some (⟨Letter.C, 1⟩, [0, 7])
      ∧ 0 ∈ (((⟨Letter.C, 1⟩ : Note), [0, 7]) : Note × List Nat).2
      ∧ maskOfList (((⟨Letter.C, 1⟩ : Note), [0, 7]) : Note × List Nat).2 % 2 = 1)
    ∧ (dmin7ii.root_names.length = dmin7ii.root_structure.length
      ∧ 2 < dmin7ii.root_structure.length
      ∧ 0 ∈ (dmin7ii.invert 2).interval_structure
      ∧ maskOfList (dmin7ii.invert 2).interval_structure % 2 = 1)
    ∧ (dmin7ii.inversion < dmin7ii.root_structure.length
      ∧ 1 ∉ DROP_2_VOICING
      ∧ 0 ∈ (dmin7ii.voicing DROP_2_VOICING).interval_structure
      ∧ maskOfList (dmin7ii.voicing DROP_2_VOICING).interval_structure % 2 = 1) := by
  have h := bass_offset_invariant
  refine ⟨⟨by decide, h.1 3 (by decide)⟩,
    ⟨by decide, h.2.1 [0, 4, 7] 12 2 (by decide)⟩,
    ⟨by decide, h.2.2.1 2741 (by decide)⟩,
    ⟨by decide, h.2.2.2.1 [0, 2, 4, 5, 7, 9, 11] 2 2 4 (by decide)⟩,
    ⟨by decide, h.2.2.2.2.1 "C#5" (⟨Letter.C, 1⟩, [0, 7]) (by decide)⟩,
    ⟨by decide, by decide, h.2.2.2.2.2.1 dmin7ii 2 (by decide) (by decide)⟩,
    ⟨by decide, by decide, h.2.2.2.2.2.2 dmin7ii DROP_2_VOICING (by decide) (by decide) (by decide)⟩⟩

/-- C7: re-spelling a note under any target letter with
`encode_enharmonic` and decoding the result recovers the same pitch class
as the original note, whatever accidental count the re-spelling needs. -/
theorem enharmonic_round_trip (l : Letter) (n : Note) :
    (decode_enharmonic (encode_enharmonic l n)).1 = (decode_enharmonic n).1 := by
  simp only [decode_enharmonic, encode_enharmonic, notePc]
  split <;> omega

/-- C8: an accidental run immediately following the leading note letter of a
chord symbol always modifies the note's pitch, never the chord's fifth:
`<letter>#…#5` and `<letter>b…b5` parse as power chords on the altered
root. -/
theorem accidental_binds_to_note (L : Letter) (k : Nat) (hk : 1 ≤ k) :
    parse_chord_symbol (String.mk (letterChar L :: (List.replicate k '#' ++ ['5'])))
      = some (⟨L, (k : Int)⟩, [0, 7])
    ∧ parse_chord_symbol (String.mk (letterChar L :: (List.replicate k 'b' ++ ['5'])))
      = some (⟨L, -(k : Int)⟩, [0, 7]) := by
  constructor
  · show parseChordChars (letterChar L :: (List.replicate k '#' ++ ['5'])) = _
    simp only [parseChordChars, letterOfChar_letterChar]
    rw [parseAccCount_sharp k '5' (by decide) []]
    rfl
  · show parseChordChars (letterChar L :: (List.replicate k 'b' ++ ['5'])) = _
    simp only [parseChordChars, letterOfChar_letterChar]
    rw [parseAccCount_flat k '5' (by decide) []]
    rfl

/-- Witness for C8: `C#5` is a power chord on C sharp and `Eb5` a power
chord on E flat. -/
theorem accidental_binds_to_note_witness :
    (1 : Nat) ≤ 1
    ∧ parse_chord_symbol "C#5" = some (⟨Letter.C, 1⟩, [0, 7])
    ∧ parse_chord_symbol "Eb5" = some (⟨Letter.E, -1⟩, [0, 7]) := by
  have hs := accidental_binds_to_note Letter.C 1 (by decide)
  have hf := accidental_binds_to_note Letter.E 1 (by decide)
  exact ⟨by decide, hs.1, hf.2⟩

/-- C9: for `1 ≤ n` below the chord's size, `invert` renders the chord
symbol as the un-inverted symbol, a slash, and the name of the new bass;
the note names are the root-position names rotated left by `n`; and the
interval structure again starts at offset 0. -/
theorem inversion_rendering (c : Chord) (n : Nat)
    (hlen : c.root_names.length = c.root_structure.length)
    (h1 : 1 ≤ n) (h2 : n < c.root_structure.length) :
    (c.invert n).chord_symbol = c.base_symbol ++ "/" ++ c.root_names.getD n ""
    ∧ (c.invert n).note_names = rotateL c.root_names n
    ∧ (c.invert n).interval_structure.headD 1 = 0 := by
  refine ⟨?_, invert_note_names c n hlen h2, ?_⟩
  · rw [invert_eq_mk]
    unfold Chord.chord_symbol Chord.closeNames
    simp only
    rw [if_neg, rotateL_headD c.root_names n "" (by omega)]
    rw [Nat.mod_eq_of_lt (show n < c.root_names.length by omega)]
    omega
  · rw [invert_interval_structure c n hlen h2]
    obtain ⟨t, ht⟩ := rotateList_cons c.root_structure 12 n h2
    rw [ht]
    rfl

/-- Witness for C9: the second inversion of `Dmin7` renders as `Dmin7/A`
with names `(A, C, D, F)` and a structure starting at 0. -/
theorem inversion_rendering_witness :
    dmin7ii.root_names.length = dmin7ii.root_structure.length
    ∧ (1 : Nat) ≤ 2 ∧ 2 < dmin7ii.root_structure.length
    ∧ ((dmin7ii.invert 2).chord_symbol
        = dmin7ii.base_symbol ++ "/" ++ dmin7ii.root_names.getD 2 ""
      ∧ (dmin7ii.invert 2).note_names = rotateL dmin7ii.root_names 2
      ∧ (dmin7ii.invert 2).interval_structure.headD 1 = 0) :=
  ⟨by decide, by decide, by decide,
    inversion_rendering dmin7ii 2 (by decide) (by decide) (by decide)⟩

/-- C10: for a non-empty boolean pattern, `build_cluster_contour` keeps the
sequence length, reverses exactly the clusters at which the cyclically
extended pattern is true, copies the others unchanged, and never changes a
cluster's size. -/
theorem cluster_contour_spec (sequence : List (List String)) (pattern : List Bool)
    (hp : pattern ≠ []) :
    (build_cluster_contour sequence pattern).length = sequence.length
    ∧ ∀ i, i < sequence.length →
        ((build_cluster_contour sequence pattern).getD i []
          = (if pattern.getD (i % pattern.length) false
             then (sequence.getD i []).reverse else sequence.getD i [])
        ∧ ((build_cluster_contour sequence pattern).getD i []).length
            = (sequence.getD i []).length) := by
  obtain ⟨k, -, hext, hlen⟩ := extendPattern_spec pattern hp sequence.length
  constructor
  · unfold build_cluster_contour
    rw [List.length_map, List.enum_eq_enumFrom, List.enumFrom_length]
  · intro i hi
    have key : (extendPattern pattern pattern sequence.length).getD i false
        = pattern.getD (i % pattern.length) false := by
      rw [hext]
      exact flatten_replicate_getD pattern k i (by omega)
    refine ⟨?_, ?_⟩
    · rw [bcc_getD sequence pattern i hi, key]
    · rw [bcc_getD sequence pattern i hi]
      split <;> simp

/-- Witness for C10: the devlog's rising-falling thirds example — the odd
clusters are reversed, the even ones copied, sizes unchanged. -/
theorem cluster_contour_spec_witness :
    RISING_FALLING ≠ []
    ∧ (build_cluster_contour [["C", "E"], ["D", "F"], ["E", "G"], ["F", "A"]]
        RISING_FALLING).length
        = ([["C", "E"], ["D", "F"], ["E", "G"], ["F", "A"]] : List (List String)).length
    ∧ (build_cluster_contour [["C", "E"], ["D", "F"], ["E", "G"], ["F", "A"]]
        RISING_FALLING).getD 1 []
        = (if RISING_FALLING.getD (1 % RISING_FALLING.length) false
           then (([["C", "E"], ["D", "F"], ["E", "G"], ["F", "A"]] :
              List (List String)).getD 1 []).reverse
           else ([["C", "E"], ["D", "F"], ["E", "G"], ["F", "A"]] :
              List (List String)).getD 1 []) := by
  have h := cluster_contour_spec [["C", "E"], ["D", "F"], ["E", "G"], ["F", "A"]]
    RISING_FALLING (by decide)
  exact ⟨by decide, h.1, (h.2 1 (by decide)).1⟩

/- ## Reproductions of the recorded notebook outputs -/

/-- Sanity checks against the recorded outputs of the examples notebook:
the drop-2 voicing, second inversion, and voiced inversion of `Dmin7`. -/
theorem notebook_dmin7_outputs :
    (dmin7ii.voicing DROP_2_VOICING).note_names = ["D", "A", "C", "F"]
    ∧ (dmin7ii.voicing DROP_2_VOICING).interval_structure = [0, 7, 10, 15]
    ∧ (dmin7ii.invert 2).note_names = ["A", "C", "D", "F"]
    ∧ (dmin7ii.invert 2).interval_structure = [0, 3, 5, 8]
    ∧ (dmin7ii.invert 2).chord_symbol = "Dmin7/A"
    ∧ ((dmin7ii.invert 2).voicing DROP_2_VOICING).note_names = ["A", "D", "F", "C"]
    ∧ ((dmin7ii.invert 2).voicing DROP_2_VOICING).interval_structure = [0, 5, 8, 15] := by
  decide

/-- Sanity checks against the style guide: further modal symbol aliases. -/
theorem style_guide_modal_symbols :
    resolve_modal_symbol "lydian#6" = some ("hemiolic", "lydian")
    ∧ resolve_modal_symbol "dorian#4nat7" = some ("harmonic", "lydian") := by
  decide

/-- Sanity checks against the notebook scale table: the altered and
paleochromatic renderings on C. -/
theorem notebook_scale_renderings :
    get_heptatonic_scale "C" "altered"
      = some (["C", "Db", "Eb", "Fb", "Gb", "Ab", "Bb"],
              ["C", "Db", "Eb", "Fb", "Gb", "Ab", "Bb"])
    ∧ get_heptatonic_scale "C" "paleochromatic"
      = some (["C", "Db", "E", "F", "Gb", "A", "B"],
              ["C", "Db", "E", "F", "Gb", "A", "B"]) := by
  decide

end Aristoxenus
